import Mathlib

/-!
Verification of the speech-segment-extraction pipeline
(`silero.py`, `corpus_vad.py`, `process_output.py`, `report.py`)
as a shallow embedding in Lean 4.

Time values are modelled as exact rationals (`ℚ`); the Python source uses
floats, but every claim under scrutiny is about control flow, ordering and
comparisons on small decimal constants, which the rational model captures
exactly.
-/

namespace SpeechSeg

/-- A speech segment record, the dict `{'start': _, 'end': _, 'duration': _}`
of `silero.py`.  The Python key `end` is a Lean keyword, so the field is
named `stop`. -/
structure Seg where
  start : ℚ
  stop : ℚ
  duration : ℚ
deriving DecidableEq, Repr

/-- Loop body of `merge_segments` (`silero.py` lines 49-59): the running
`current_segment` is extended in place when the next segment starts within
`threshold` of its end (`current['end'] = next['end']`, duration recomputed
as `end - start`), otherwise `current` is emitted and `next` becomes
current; after the loop the final `current` is emitted. -/
def mergeLoop (threshold : ℚ) (current : Seg) : List Seg → List Seg
  | [] => [current]
  | next :: rest =>
      if next.start - current.stop < threshold then
        mergeLoop threshold
          { start := current.start, stop := next.stop,
            duration := next.stop - current.start } rest
      else
        current :: mergeLoop threshold next rest

/-- `merge_segments` of `silero.py` (lines 34-60): empty input returns `[]`,
otherwise the greedy left-to-right pass starting from the first element. -/
def merge_segments (segments : List Seg) (threshold : ℚ) : List Seg :=
  match segments with
  | [] => []
  | first :: rest => mergeLoop threshold first rest

/-- Modelled from the spec's words (§4.2 merge algorithm): maintain a running
current interval initialised to the first element; for each subsequent
interval, if `next.start - current.end < threshold` extend
`current.end = next.end` (duration recomputed), otherwise emit `current` and
set `current = next`; after exhausting input emit the final `current`.
Written as a fold with an explicit emitted-output accumulator, to be compared
with `merge_segments` as translated from the code. -/
def mergeSpecPass (segments : List Seg) (threshold : ℚ) : List Seg :=
  match segments with
  | [] => []
  | first :: rest =>
      let p : List Seg × Seg :=
        rest.foldl
          (fun acc next =>
            if next.start - acc.2.stop < threshold then
              (acc.1, { start := acc.2.start, stop := next.stop,
                        duration := next.stop - acc.2.start })
            else
              (acc.1 ++ [acc.2], next))
          ([], first)
      p.1 ++ [p.2]

lemma mergeLoop_eq_foldl (threshold : ℚ) :
    ∀ (rest : List Seg) (current : Seg) (out : List Seg),
      out ++ mergeLoop threshold current rest =
        (rest.foldl
          (fun acc next =>
            if next.start - acc.2.stop < threshold then
              (acc.1, { start := acc.2.start, stop := next.stop,
                        duration := next.stop - acc.2.start })
            else
              (acc.1 ++ [acc.2], next))
          (out, current)).1 ++
        [(rest.foldl
          (fun acc next =>
            if next.start - acc.2.stop < threshold then
              (acc.1, { start := acc.2.start, stop := next.stop,
                        duration := next.stop - acc.2.start })
            else
              (acc.1 ++ [acc.2], next))
          (out, current)).2] := by
  intro rest
  induction rest with
  | nil => intro current out; simp [mergeLoop]
  | cons next rest ih =>
      intro current out
      by_cases h : next.start - current.stop < threshold
      · simp only [mergeLoop, h, if_pos, List.foldl_cons]
        exact ih _ out
      · simp only [mergeLoop, h, if_neg, List.foldl_cons, not_false_iff]
        have h2 := ih next (out ++ [current])
        simpa [List.append_assoc] using h2

lemma merge_segments_eq_specPass (segments : List Seg) (threshold : ℚ) :
    merge_segments segments threshold = mergeSpecPass segments threshold := by
  cases segments with
  | nil => rfl
  | cons first rest =>
      have h := mergeLoop_eq_foldl threshold rest first []
      simpa [merge_segments, mergeSpecPass] using h

/-- The min-duration filter of `silero.py` line 136:
`[utt for utt in cleaned if utt['duration'] >= min_duration]`. -/
def filter_min_duration (cleaned : List Seg) (min_duration : ℚ) : List Seg :=
  cleaned.filter (fun utt => decide (utt.duration ≥ min_duration))

/-- A raw detector timestamp `{'start': _, 'end': _}` in sample indices, as
returned by `get_speech_timestamps`. -/
structure RawSeg where
  start : ℕ
  stop : ℕ
deriving DecidableEq, Repr

/-- The conversion of `silero.py` lines 133-134: sample indices divided by
the fixed 16 kHz sample rate, duration `(end - start) / 16_000`. -/
def to_utterances (ts : List RawSeg) : List Seg :=
  ts.map (fun utt =>
    { start := (utt.start : ℚ) / 16000,
      stop := (utt.stop : ℚ) / 16000,
      duration := ((utt.stop : ℚ) - (utt.start : ℚ)) / 16000 })

/-- One row of the per-shard `speech_segments.csv` (`silero.py` lines
151-157).  The `segment_id` column is omitted from the model: it is the
string `"{stem}_{start:.2f}_{end:.2f}"`, fully determined by the
`filename`, `start` and `stop` fields, so row equality (the only thing the
claims use) is unchanged by its omission. -/
structure CsvRow where
  filename : String
  start : ℚ
  stop : ℚ
  duration : ℚ
deriving DecidableEq, Repr

/-- Python `str.endswith`, modelled as a character-suffix test. -/
def endswith (s suffixStr : String) : Bool :=
  suffixStr.data.isSuffixOf s.data

/-- The observable file-system writes performed by `process_wav_files`
while handling a shard, in program order.  `detect f` records the
decode-plus-detector invocation on file `f` (`read_audio` +
`get_speech_timestamps`); `truncateCsv` records opening the segment CSV
with mode `'w'` and writing the header (`silero.py` line 113). -/
inductive Event where
  | detect (filename : String)
  | appendProcessed (filename : String)
  | appendWarning (filename : String)
  | appendError (filename : String) (msg : String)
  | writeCsvRow (row : CsvRow)
  | truncateCsv
deriving DecidableEq, Repr

/-- Events emitted while handling one file (the body of the `for` loop,
`silero.py` lines 119-163).  The external decode + detector call is the
oracle `detect`: `Except.error e` models an exception raised by
`read_audio`/`get_speech_timestamps` (caught at lines 160-162),
`Except.ok ts` the detector's timestamp list.  Empty timestamps go to the
warning log and `continue`; otherwise the filename is appended to the
processed log, then each surviving merged-and-filtered segment is written
as a CSV row. -/
def processFile (detect : String → Except String (List RawSeg))
    (threshold min_duration : ℚ) (filename : String) : List Event :=
  Event.detect filename ::
    match detect filename with
    | Except.error e => [Event.appendError filename e]
    | Except.ok ts =>
        if ts = [] then
          [Event.appendWarning filename]
        else
          Event.appendProcessed filename ::
            (filter_min_duration (merge_segments (to_utterances ts) threshold)
                min_duration).map
              (fun seg => Event.writeCsvRow
                { filename := filename, start := seg.start,
                  stop := seg.stop, duration := seg.duration })

/-- Contents of one shard's checkpoint files: the three plain-text logs
(one entry per line) and the rows of `speech_segments.csv` (header
implicit). -/
@[ext]
structure ShardState where
  processedLog : List String
  warningLog : List String
  errorLog : List String
  csvRows : List CsvRow
deriving DecidableEq, Repr

/-- Effect of one write event on the shard's checkpoint files.  The three
logs are opened with mode `'a'` (append); the CSV is opened with mode `'w'`
(truncate) at `truncateCsv`.  An error-log line is
`"<filename>: <message>"` (`silero.py` line 162). -/
def applyEvent (s : ShardState) : Event → ShardState
  | Event.detect _ => s
  | Event.appendProcessed f => { s with processedLog := s.processedLog ++ [f] }
  | Event.appendWarning f => { s with warningLog := s.warningLog ++ [f] }
  | Event.appendError f msg =>
      { s with errorLog := s.errorLog ++ [f ++ ": " ++ msg] }
  | Event.writeCsvRow row => { s with csvRows := s.csvRows ++ [row] }
  | Event.truncateCsv => { s with csvRows := [] }

/-- File selection of `silero.py` lines 108-111: if a file list was given
use it, otherwise scan the folder contents (`os.listdir`); either way keep
only names ending in `.wav` that are not in the processed log.  The Python
truthiness test `if file_list:` makes an empty list behave like `None`. -/
def select_wav_files (file_list folder_contents processed : List String) :
    List String :=
  if file_list ≠ [] then
    file_list.filter (fun f => endswith f ".wav" && decide (f ∉ processed))
  else
    folder_contents.filter (fun f => endswith f ".wav" && decide (f ∉ processed))

/-- Log-folder resolution of `silero.py` lines 89-96: a non-empty file list
with a non-empty data split moves the logs into the split's subdirectory
(`os.path.join`, modelled with `"/"`); a non-empty file list without a
split exits the program (`none`); otherwise (empty or absent file list) the
top-level log folder is used unchanged and the folder is scanned. -/
def effective_log_folder (file_list : List String) (data_split : String)
    (log_folder : String) : Option String :=
  if file_list ≠ [] ∧ data_split ≠ "" then
    some (log_folder ++ "/" ++ data_split)
  else if file_list ≠ [] ∧ data_split = "" then
    none
  else
    some log_folder

/-- The events of the per-file loop of one run: each selected file handled
in order. -/
def shard_body (detect : String → Except String (List RawSeg))
    (threshold min_duration : ℚ)
    (folder_contents file_list processed : List String) : List Event :=
  ((select_wav_files file_list folder_contents processed).map
    (processFile detect threshold min_duration)).flatten

/-- The ordered write trace of one `process_wav_files` run: the CSV is
opened with `'w'` (truncating it) before the loop, then each selected file
is handled in order. -/
def process_trace (detect : String → Except String (List RawSeg))
    (threshold min_duration : ℚ)
    (folder_contents file_list processed : List String) : List Event :=
  Event.truncateCsv ::
    shard_body detect threshold min_duration folder_contents file_list processed

/-- Final checkpoint state after one run over a shard: the processed log is
read from the previous state, the trace is replayed over the previous
checkpoint files. -/
def run_shard (detect : String → Except String (List RawSeg))
    (threshold min_duration : ℚ)
    (folder_contents file_list : List String) (s : ShardState) : ShardState :=
  (process_trace detect threshold min_duration folder_contents file_list
    s.processedLog).foldl applyEvent s

/-- `process_wav_files` of `silero.py` (lines 63-168): resolves the log
folder (exiting — `none` — when a file list is given without a data split)
and otherwise replays the run over the shard's checkpoint state. -/
def process_wav_files (detect : String → Except String (List RawSeg))
    (threshold min_duration : ℚ)
    (folder_contents file_list : List String) (data_split : String)
    (s : ShardState) : Option ShardState :=
  match effective_log_folder file_list data_split "logs" with
  | none => none
  | some _ =>
      some (run_shard detect threshold min_duration folder_contents file_list s)

/-- `split_list` of `corpus_vad.py` (lines 22-25):
`k, m = divmod(len(lst), n)` and slices
`lst[i*k + min(i, m) : (i+1)*k + min(i+1, m)]` for `i in range(n)`.
A Python slice `lst[a:b]` is `(lst.drop a).take (b - a)`.  For `n = 0` the
Python generator raises `ZeroDivisionError` when forced; the claims only
concern positive worker counts, which the theorems require explicitly. -/
def split_list (lst : List α) (n : ℕ) : List (List α) :=
  let k := lst.length / n
  let m := lst.length % n
  (List.range n).map (fun i =>
    (lst.drop (i * k + min i m)).take ((i + 1) * k + min (i + 1) m - (i * k + min i m)))

/-- Deduplication keeping the first occurrence, with an accumulator of
already-seen elements.  Models pandas `drop_duplicates(keep="first")` and
(up to the unspecified ordering of a Python `set`) `list(set(contents))` in
`process_output.py`. -/
def dedupFirstGo [DecidableEq α] (seen : List α) : List α → List α
  | [] => []
  | a :: as =>
      if a ∈ seen then dedupFirstGo seen as
      else a :: dedupFirstGo (a :: seen) as

/-- Deduplication of a list keeping the first occurrence of each element. -/
def dedupFirst [DecidableEq α] (l : List α) : List α :=
  dedupFirstGo [] l

/-- The file patterns searched for by
`VADOUtputProcessor._retrieve_output` (`process_output.py` line 26). -/
def file_patterns : List String :=
  ["processed_files.log", "speech_segments.csv", "warning_files.log"]

/-- Plain-text branch of `VADOUtputProcessor._merge_vad_output`
(`process_output.py` lines 57-69): all lines of all located files of one
pattern are concatenated and passed through `list(set(contents))`.  A
Python set iterates in an unspecified order; the model keeps the first
occurrence, and the theorems assert only membership and duplicate-freeness
of the result. -/
def merge_vad_output_text (file_contents : List (List String)) : List String :=
  dedupFirst file_contents.flatten

/-- CSV branch of `VADOUtputProcessor._merge_vad_output` (`process_output.py`
lines 70-85): the per-shard tables are concatenated
(`pd.concat(..., ignore_index=True)`) and deduplicated by full-row equality
keeping the first occurrence (`drop_duplicates(keep="first")`). -/
def merge_vad_output_csv (tables : List (List CsvRow)) : List CsvRow :=
  dedupFirst tables.flatten

/-- Outcome of `Report.generate_report` (`report.py` lines 76-119),
restricted to the behaviour the claims are about.  `Except.error`
models the uncaught Python `ZeroDivisionError`; `Except.ok none` is the
`else` branch that logs "No valid segments found in any files." instead of
computing percentages; `Except.ok (some (sp, nsp))` carries the computed
speech and non-speech percentages (the remaining report fields — max,
quartiles, mean, std — are presentation output computed before the
division and not claim-relevant). -/
def generate_report (all_durations : List ℚ)
    (total_speech_duration total_audio_duration : ℚ) :
    Except String (Option (ℚ × ℚ)) :=
  if all_durations ≠ [] then
    if total_audio_duration = 0 then
      Except.error "ZeroDivisionError"
    else
      Except.ok (some (total_speech_duration / total_audio_duration * 100,
        100 - total_speech_duration / total_audio_duration * 100))
  else
    Except.ok none

/-- Filenames appended to the processed log by a trace, in order. -/
def processedOf (evs : List Event) : List String :=
  evs.filterMap fun e =>
    match e with
    | Event.appendProcessed f => some f
    | _ => none

/-- Filenames appended to the warning log by a trace, in order. -/
def warningsOf (evs : List Event) : List String :=
  evs.filterMap fun e =>
    match e with
    | Event.appendWarning f => some f
    | _ => none

/-- Lines appended to the error log by a trace, in order. -/
def errorsOf (evs : List Event) : List String :=
  evs.filterMap fun e =>
    match e with
    | Event.appendError f msg => some (f ++ ": " ++ msg)
    | _ => none

/-- CSV rows written by a trace, in order. -/
def rowsOf (evs : List Event) : List CsvRow :=
  evs.filterMap fun e =>
    match e with
    | Event.writeCsvRow row => some row
    | _ => none

/-- The file an event is about (`none` for the CSV truncation). -/
def eventSubject : Event → Option String
  | Event.detect f => some f
  | Event.appendProcessed f => some f
  | Event.appendWarning f => some f
  | Event.appendError f _ => some f
  | Event.writeCsvRow row => some row.filename
  | Event.truncateCsv => none

/-- Concrete detector oracle: every file decodes and yields one speech
interval of samples 0 to 32000 (0 s to 2 s at 16 kHz). -/
def det_single : String → Except String (List RawSeg) :=
  fun _ => Except.ok [{ start := 0, stop := 32000 }]

/-- Concrete detector oracle: every file decodes but contains no speech. -/
def det_empty : String → Except String (List RawSeg) :=
  fun _ => Except.ok []

/-- Concrete detector oracle: `bad.wav` raises an exception, every other
file yields one 2-second speech interval. -/
def det_mixed : String → Except String (List RawSeg) :=
  fun f =>
    if f = "bad.wav" then Except.error "boom"
    else Except.ok [{ start := 0, stop := 32000 }]

lemma foldl_applyEvent_processedLog :
    ∀ (evs : List Event) (s : ShardState),
      (evs.foldl applyEvent s).processedLog = s.processedLog ++ processedOf evs := by
  intro evs
  induction evs with
  | nil => intro s; simp [processedOf]
  | cons e rest ih =>
      intro s
      cases e <;> simp [applyEvent, processedOf, List.filterMap_cons, ih]

lemma foldl_applyEvent_warningLog :
    ∀ (evs : List Event) (s : ShardState),
      (evs.foldl applyEvent s).warningLog = s.warningLog ++ warningsOf evs := by
  intro evs
  induction evs with
  | nil => intro s; simp [warningsOf]
  | cons e rest ih =>
      intro s
      cases e <;> simp [applyEvent, warningsOf, List.filterMap_cons, ih]

lemma foldl_applyEvent_errorLog :
    ∀ (evs : List Event) (s : ShardState),
      (evs.foldl applyEvent s).errorLog = s.errorLog ++ errorsOf evs := by
  intro evs
  induction evs with
  | nil => intro s; simp [errorsOf]
  | cons e rest ih =>
      intro s
      cases e <;> simp [applyEvent, errorsOf, List.filterMap_cons, ih]

lemma foldl_applyEvent_csvRows_of_no_truncate :
    ∀ (evs : List Event) (s : ShardState), Event.truncateCsv ∉ evs →
      (evs.foldl applyEvent s).csvRows = s.csvRows ++ rowsOf evs := by
  intro evs
  induction evs with
  | nil => intro s _; simp [rowsOf]
  | cons e rest ih =>
      intro s h
      rw [List.mem_cons, not_or] at h
      cases e <;>
        simp_all [applyEvent, rowsOf, List.filterMap_cons, ih]

lemma processFile_no_truncate
    (detect : String → Except String (List RawSeg))
    (threshold min_duration : ℚ) (filename : String) :
    Event.truncateCsv ∉ processFile detect threshold min_duration filename := by
  unfold processFile
  cases detect filename with
  | error e => simp
  | ok ts =>
      by_cases h : ts = [] <;> simp [h, List.mem_map]

lemma processFile_subject
    (detect : String → Except String (List RawSeg))
    (threshold min_duration : ℚ) (filename : String) :
    ∀ e ∈ processFile detect threshold min_duration filename,
      eventSubject e = some filename := by
  unfold processFile
  intro e he
  cases hd : detect filename with
  | error msg =>
      rw [hd] at he
      simp at he
      rcases he with rfl | rfl <;> rfl
  | ok ts =>
      rw [hd] at he
      by_cases hts : ts = []
      · simp [hts] at he
        rcases he with rfl | rfl <;> rfl
      · simp [hts] at he
        rcases he with rfl | rfl | ⟨seg, _, rfl⟩ <;> rfl

lemma filterMap_flatten_eq (f : α → Option β) :
    ∀ L : List (List α),
      L.flatten.filterMap f = (L.map (List.filterMap f)).flatten := by
  intro L
  induction L with
  | nil => simp
  | cons a L ih => simp [List.filterMap_append, ih]

lemma shard_body_no_truncate (detect : String → Except String (List RawSeg))
    (threshold min_duration : ℚ) (fc fl processed : List String) :
    Event.truncateCsv ∉ shard_body detect threshold min_duration fc fl processed := by
  intro h
  rw [shard_body, List.mem_flatten] at h
  obtain ⟨l, hl, hmem⟩ := h
  rw [List.mem_map] at hl
  obtain ⟨g, _, rfl⟩ := hl
  exact processFile_no_truncate detect threshold min_duration g hmem

lemma run_shard_eq (detect : String → Except String (List RawSeg))
    (threshold min_duration : ℚ) (fc fl : List String) (s : ShardState) :
    run_shard detect threshold min_duration fc fl s =
      { processedLog := s.processedLog ++
          processedOf (shard_body detect threshold min_duration fc fl s.processedLog),
        warningLog := s.warningLog ++
          warningsOf (shard_body detect threshold min_duration fc fl s.processedLog),
        errorLog := s.errorLog ++
          errorsOf (shard_body detect threshold min_duration fc fl s.processedLog),
        csvRows :=
          rowsOf (shard_body detect threshold min_duration fc fl s.processedLog) } := by
  rw [run_shard, process_trace, List.foldl_cons]
  have hs : applyEvent s Event.truncateCsv = { s with csvRows := [] } := rfl
  rw [hs]
  have hnt := shard_body_no_truncate detect threshold min_duration fc fl s.processedLog
  apply ShardState.ext
  · rw [foldl_applyEvent_processedLog]
  · rw [foldl_applyEvent_warningLog]
  · rw [foldl_applyEvent_errorLog]
  · rw [foldl_applyEvent_csvRows_of_no_truncate _ _ hnt]
    rfl

lemma mem_select_not_processed {fl fc processed : List String} {f : String}
    (h : f ∈ select_wav_files fl fc processed) : f ∉ processed := by
  rw [select_wav_files] at h
  by_cases hfl : fl ≠ [] <;>
    simp [hfl, List.mem_filter] at h <;> exact h.2.2

lemma select_eq_self {files fc processed : List String}
    (hne : files ≠ [])
    (hwav : ∀ f ∈ files, endswith f ".wav" = true)
    (hnp : ∀ f ∈ files, f ∉ processed) :
    select_wav_files files fc processed = files := by
  rw [select_wav_files, if_pos hne]
  rw [List.filter_eq_self]
  intro f hf
  simp [hwav f hf, hnp f hf]

lemma processedOf_processFile_ok {detect : String → Except String (List RawSeg)}
    (threshold min_duration : ℚ) {g : String} {ts : List RawSeg}
    (hd : detect g = Except.ok ts) (hne : ts ≠ []) :
    processedOf (processFile detect threshold min_duration g) = [g] := by
  simp only [processFile, hd]
  rw [if_neg hne]
  simp only [processedOf, List.filterMap_cons]
  simp [List.filterMap_map, List.filterMap_eq_nil_iff]

lemma processedOf_processFile_error {detect : String → Except String (List RawSeg)}
    (threshold min_duration : ℚ) {g : String} {e : String}
    (hd : detect g = Except.error e) :
    processedOf (processFile detect threshold min_duration g) = [] := by
  simp only [processFile, hd]
  simp [processedOf, List.filterMap_cons]

lemma errorsOf_processFile_ok {detect : String → Except String (List RawSeg)}
    (threshold min_duration : ℚ) {g : String} {ts : List RawSeg}
    (hd : detect g = Except.ok ts) :
    errorsOf (processFile detect threshold min_duration g) = [] := by
  simp only [processFile, hd]
  by_cases hne : ts = []
  · simp [hne, errorsOf, List.filterMap_cons]
  · rw [if_neg hne]
    simp only [errorsOf, List.filterMap_cons]
    simp [List.filterMap_map, List.filterMap_eq_nil_iff]

lemma errorsOf_processFile_error {detect : String → Except String (List RawSeg)}
    (threshold min_duration : ℚ) {g : String} {e : String}
    (hd : detect g = Except.error e) :
    errorsOf (processFile detect threshold min_duration g) = [g ++ ": " ++ e] := by
  simp only [processFile, hd]
  simp [errorsOf, List.filterMap_cons]

lemma flatten_map_eq_singleton {α β : Type} [DecidableEq α]
    {h : α → List β} {b : β} :
    ∀ {files : List α} {f : α}, f ∈ files → files.Nodup →
      h f = [b] → (∀ g ∈ files, g ≠ f → h g = []) →
      (files.map h).flatten = [b] := by
  intro files
  induction files with
  | nil => intro f hf; cases hf
  | cons a as ih =>
      intro f hf hnd hone hothers
      rw [List.nodup_cons] at hnd
      rcases List.mem_cons.mp hf with rfl | hfas
      · have hrest : (as.map h).flatten = [] := by
          rw [List.flatten_eq_nil_iff]
          intro l hl
          rw [List.mem_map] at hl
          obtain ⟨g, hg, rfl⟩ := hl
          exact hothers g (List.mem_cons_of_mem _ hg)
            (fun hgf => hnd.1 (hgf ▸ hg))
        simp [hone, hrest]
      · have ha : h a = [] :=
          hothers a (List.mem_cons_self _ _)
            (fun haf => hnd.1 (haf ▸ hfas))
        have := ih hfas hnd.2 hone
          (fun g hg hgf => hothers g (List.mem_cons_of_mem _ hg) hgf)
        simp [ha, this]

lemma mem_dedupFirstGo [DecidableEq α] :
    ∀ (l seen : List α) (x : α),
      x ∈ dedupFirstGo seen l ↔ x ∈ l ∧ x ∉ seen := by
  intro l
  induction l with
  | nil => intro seen x; simp [dedupFirstGo]
  | cons a as ih =>
      intro seen x
      rw [dedupFirstGo]
      by_cases ha : a ∈ seen
      · rw [if_pos ha, ih]
        simp only [List.mem_cons]
        constructor
        · rintro ⟨hx, hxs⟩
          exact ⟨Or.inr hx, hxs⟩
        · rintro ⟨rfl | hx, hxs⟩
          · exact absurd ha hxs
          · exact ⟨hx, hxs⟩
      · rw [if_neg ha]
        simp only [List.mem_cons, ih]
        constructor
        · rintro (rfl | ⟨hx, hxs⟩)
          · exact ⟨Or.inl rfl, ha⟩
          · exact ⟨Or.inr hx, fun hs => hxs (Or.inr hs)⟩
        · rintro ⟨rfl | hx, hxs⟩
          · exact Or.inl rfl
          · by_cases hxa : x = a
            · exact Or.inl hxa
            · refine Or.inr ⟨hx, ?_⟩
              rintro (h | h)
              · exact hxa h
              · exact hxs h

lemma nodup_dedupFirstGo [DecidableEq α] :
    ∀ (l seen : List α), (dedupFirstGo seen l).Nodup := by
  intro l
  induction l with
  | nil => intro seen; simp [dedupFirstGo]
  | cons a as ih =>
      intro seen
      rw [dedupFirstGo]
      by_cases ha : a ∈ seen
      · rw [if_pos ha]; exact ih seen
      · rw [if_neg ha, List.nodup_cons]
        refine ⟨fun hmem => ?_, ih (a :: seen)⟩
        rw [mem_dedupFirstGo] at hmem
        exact hmem.2 (List.mem_cons_self _ _)

lemma sublist_dedupFirstGo [DecidableEq α] :
    ∀ (l seen : List α), List.Sublist (dedupFirstGo seen l) l := by
  intro l
  induction l with
  | nil => intro seen; simp [dedupFirstGo]
  | cons a as ih =>
      intro seen
      rw [dedupFirstGo]
      by_cases ha : a ∈ seen
      · rw [if_pos ha]
        exact (ih seen).trans (List.sublist_cons_self _ _)
      · rw [if_neg ha]
        exact List.Sublist.cons₂ a (ih (a :: seen))

lemma mem_dedupFirst [DecidableEq α] (l : List α) (x : α) :
    x ∈ dedupFirst l ↔ x ∈ l := by
  rw [dedupFirst, mem_dedupFirstGo]
  simp

lemma nodup_dedupFirst [DecidableEq α] (l : List α) :
    (dedupFirst l).Nodup := nodup_dedupFirstGo l []

lemma sublist_dedupFirst [DecidableEq α] (l : List α) :
    List.Sublist (dedupFirst l) l := sublist_dedupFirstGo l []

lemma flatten_map_range_take (lst : List α) (B : ℕ → ℕ)
    (h0 : B 0 = 0) (hmono : ∀ i, B i ≤ B (i + 1)) :
    ∀ t, ((List.range t).map
        (fun i => (lst.drop (B i)).take (B (i + 1) - B i))).flatten =
      lst.take (B t) := by
  intro t
  induction t with
  | zero => simp [h0]
  | succ t ih =>
      rw [List.range_succ, List.map_append, List.flatten_append]
      simp only [List.map_cons, List.map_nil, List.flatten_cons,
        List.flatten_nil, List.append_nil]
      rw [ih]
      have hb : B (t + 1) = B t + (B (t + 1) - B t) := by
        have := hmono t
        omega
      conv_rhs => rw [hb, List.take_add]

lemma split_bound_mono (k m : ℕ) (i : ℕ) :
    i * k + min i m ≤ (i + 1) * k + min (i + 1) m := by
  have h : (i + 1) * k = i * k + k := by ring
  omega

lemma split_bound_le (k m : ℕ) {j n : ℕ} (hjn : j ≤ n) :
    j * k + min j m ≤ n * k + min n m := by
  have h := Nat.mul_le_mul_right k hjn
  omega

lemma split_list_flatten {lst : List α} {n : ℕ} (hn : 0 < n) :
    (split_list lst n).flatten = lst := by
  rw [split_list]
  rw [flatten_map_range_take lst
    (fun i => i * (lst.length / n) + min i (lst.length % n))
    (by simp) (fun i => split_bound_mono _ _ i) n]
  have hm : lst.length % n < n := Nat.mod_lt _ hn
  have hdm : n * (lst.length / n) + lst.length % n = lst.length :=
    Nat.div_add_mod lst.length n
  have hb : n * (lst.length / n) + min n (lst.length % n) = lst.length := by
    omega
  rw [hb, List.take_length]

lemma split_list_length (lst : List α) (n : ℕ) :
    (split_list lst n).length = n := by
  simp [split_list]

lemma split_list_map_length {lst : List α} {n : ℕ} (hn : 0 < n) :
    (split_list lst n).map List.length =
      (List.range n).map
        (fun i => lst.length / n + if i < lst.length % n then 1 else 0) := by
  rw [split_list]
  simp only [List.map_map]
  apply List.map_congr_left
  intro i hi
  rw [List.mem_range] at hi
  simp only [Function.comp_apply, List.length_take, List.length_drop]
  obtain ⟨q, r, hq, hr⟩ :
      ∃ q r, lst.length / n = q ∧ lst.length % n = r := ⟨_, _, rfl, rfl⟩
  rw [hq, hr]
  have hm : r < n := hr ▸ Nat.mod_lt _ hn
  have hdm : n * q + r = lst.length := by
    rw [← hq, ← hr]
    exact Nat.div_add_mod lst.length n
  have hsucc : (i + 1) * q = i * q + q := by ring
  have hi1q : i * q + q ≤ n * q := by
    rw [← hsucc]
    exact Nat.mul_le_mul_right q hi
  rw [hsucc]
  by_cases him : i < r
  · have h1 : min i r = i := by omega
    have h2 : min (i + 1) r = i + 1 := by omega
    rw [if_pos him, h1, h2]
    have hA : i * q + q + (i + 1) - (i * q + i) = q + 1 := by omega
    have hB : q + 1 ≤ lst.length - (i * q + i) := by omega
    rw [hA, Nat.min_eq_left hB]
  · have h1 : min i r = r := by omega
    have h2 : min (i + 1) r = r := by omega
    rw [if_neg him, h1, h2]
    have hA : i * q + q + r - (i * q + r) = q := by omega
    have hB : q ≤ lst.length - (i * q + r) := by omega
    rw [hA, Nat.min_eq_left hB]
    omega

lemma empty_mem_split_list {lst : List α} {n : ℕ} (h : lst.length < n) :
    [] ∈ split_list lst n := by
  have h0 : 0 < n := Nat.lt_of_le_of_lt (Nat.zero_le _) h
  have hmem : (0 : ℕ) ∈ (split_list lst n).map List.length := by
    rw [split_list_map_length h0, List.mem_map]
    refine ⟨n - 1, ?_, ?_⟩
    · rw [List.mem_range]; omega
    · show lst.length / n + (if n - 1 < lst.length % n then 1 else 0) = 0
      rw [Nat.div_eq_of_lt h, Nat.mod_eq_of_lt h, if_neg (by omega)]
  obtain ⟨s, hs, hlen⟩ := List.mem_map.mp hmem
  have hnil : s = [] := List.length_eq_zero.mp hlen
  exact hnil ▸ hs

/-- C1: `merge_segments` is the single left-to-right greedy pass the spec
describes — the current interval is extended (duration recomputed) exactly
when the next start is strictly less than `threshold` after the current
end, the final current interval is always emitted — and consequently an
empty input yields an empty output, a singleton is returned unchanged, a
chain of three close intervals collapses into one,
`merge([(0,1),(1.1,2)], 0.25) = [(0,2)]`, and
`merge([(0,1),(1.3,2)], 0.25)` keeps both intervals because a gap at or
above the threshold is never merged (including a gap exactly equal to the
threshold). -/
theorem merge_segments_greedy_spec :
    (∀ segments threshold,
      merge_segments segments threshold = mergeSpecPass segments threshold) ∧
    (∀ threshold, merge_segments [] threshold = []) ∧
    (∀ s threshold, merge_segments [s] threshold = [s]) ∧
    merge_segments
      [⟨0, 1, 1⟩, ⟨1.1, 2, 0.9⟩, ⟨2.1, 3, 0.9⟩] 0.25 = [⟨0, 3, 3⟩] ∧
    merge_segments [⟨0, 1, 1⟩, ⟨1.1, 2, 0.9⟩] 0.25 = [⟨0, 2, 2⟩] ∧
    merge_segments [⟨0, 1, 1⟩, ⟨1.3, 2, 0.7⟩] 0.25 =
      [⟨0, 1, 1⟩, ⟨1.3, 2, 0.7⟩] ∧
    merge_segments [⟨0, 1, 1⟩, ⟨1.25, 2, 0.75⟩] 0.25 =
      [⟨0, 1, 1⟩, ⟨1.25, 2, 0.75⟩] := by
  refine ⟨merge_segments_eq_specPass, fun _ => rfl, fun _ _ => rfl, ?_, ?_, ?_, ?_⟩ <;>
    norm_num [merge_segments, mergeLoop]

lemma mem_rowsOf {row : CsvRow} {evs : List Event} :
    row ∈ rowsOf evs ↔ Event.writeCsvRow row ∈ evs := by
  rw [rowsOf, List.mem_filterMap]
  constructor
  · rintro ⟨e, he, hme⟩
    cases e <;> simp_all
  · intro h
    exact ⟨_, h, rfl⟩

lemma mem_processedOf {g : String} {evs : List Event} :
    g ∈ processedOf evs ↔ Event.appendProcessed g ∈ evs := by
  rw [processedOf, List.mem_filterMap]
  constructor
  · rintro ⟨e, he, hme⟩
    cases e <;> simp_all
  · intro h
    exact ⟨_, h, rfl⟩

lemma mem_shard_body_subject {e : Event}
    {detect : String → Except String (List RawSeg)}
    {threshold min_duration : ℚ} {fc fl processed : List String}
    (he : e ∈ shard_body detect threshold min_duration fc fl processed) :
    ∃ g ∈ select_wav_files fl fc processed, eventSubject e = some g := by
  rw [shard_body, List.mem_flatten] at he
  obtain ⟨l, hl, hmem⟩ := he
  rw [List.mem_map] at hl
  obtain ⟨g, hg, rfl⟩ := hl
  exact ⟨g, hg, processFile_subject detect threshold min_duration g e hmem⟩

/-- C2: evaluating the per-file flow at a file with one surviving speech
segment shows the write order the code actually performs: the filename is
appended to the processed log immediately after detection and **before**
any of its segment rows is written to the CSV, contradicting the required
processed-only-after-rows ordering. -/
theorem processed_mark_precedes_csv_rows :
    processFile det_single 0.25 0.5 "a.wav" =
      [Event.detect "a.wav", Event.appendProcessed "a.wav",
       Event.writeCsvRow ⟨"a.wav", 0, 2, 2⟩] := by
  norm_num [processFile, det_single, to_utterances, merge_segments,
    mergeLoop, filter_min_duration, List.filter_cons]

/-- C3: a filename already present in the shard's processed log is excluded
from the selected work list, its decode-plus-detect step never appears in
the run's trace, and the run's segment CSV contains no row for it — so a
re-run neither re-invokes the detector on it nor duplicates its rows. -/
theorem processed_files_skipped
    (detect : String → Except String (List RawSeg))
    (threshold min_duration : ℚ) (fc fl : List String) (s : ShardState)
    (f : String) (hf : f ∈ s.processedLog) :
    f ∉ select_wav_files fl fc s.processedLog ∧
    Event.detect f ∉
      process_trace detect threshold min_duration fc fl s.processedLog ∧
    ∀ row ∈ (run_shard detect threshold min_duration fc fl s).csvRows,
      row.filename ≠ f := by
  have hsel : f ∉ select_wav_files fl fc s.processedLog :=
    fun hmem => (mem_select_not_processed hmem) hf
  refine ⟨hsel, ?_, ?_⟩
  · intro hmem
    rw [process_trace, List.mem_cons] at hmem
    rcases hmem with h | h
    · cases h
    · obtain ⟨g, hg, hsub⟩ := mem_shard_body_subject h
      rw [eventSubject] at hsub
      obtain rfl : f = g := Option.some.inj hsub
      exact hsel hg
  · intro row hrow hname
    rw [run_shard_eq] at hrow
    simp only at hrow
    rw [mem_rowsOf] at hrow
    obtain ⟨g, hg, hsub⟩ := mem_shard_body_subject hrow
    rw [eventSubject] at hsub
    rw [hname] at hsub
    obtain rfl : f = g := Option.some.inj hsub
    exact hsel hg

/-- C3 witness: with `a.wav` already in the processed log, a run over the
list `[a.wav, b.wav]` never invokes the detector on `a.wav`. -/
theorem processed_files_skipped_witness :
    Event.detect "a.wav" ∉
      process_trace det_single 0.25 0.5 [] ["a.wav", "b.wav"] ["a.wav"] :=
  (processed_files_skipped det_single 0.25 0.5 [] ["a.wav", "b.wav"]
    ⟨["a.wav"], [], [], []⟩ "a.wav" (by simp)).2.1

/-- C4 counterexample: a shard whose previous run left a row in the
segment CSV (state `⟨["done.wav"], [], [], [row]⟩`) is re-run over
`["b.wav"]`; the run succeeds but the resulting CSV is empty — the
previous run's CSV checkpoint content was removed, because the CSV is
reopened with mode `'w'`. -/
theorem csv_truncated_on_rerun :
    process_wav_files det_empty 0.25 0.5 [] ["b.wav"] "0"
        ⟨["done.wav"], [], [], [⟨"done.wav", 0, 1, 1⟩]⟩ =
      some ⟨["done.wav"], ["b.wav"], [], []⟩ ∧
    (⟨["done.wav"], [], [], [⟨"done.wav", 0, 1, 1⟩]⟩ : ShardState).csvRows ≠
      [] := by
  constructor
  · simp [process_wav_files, effective_log_folder, run_shard, process_trace,
      shard_body, select_wav_files, processFile, det_empty, applyEvent,
      endswith]
  · simp

/-- C4 (amended): the three plain-text checkpoint logs are append-only
across runs — a run only ever appends to the processed, warning and error
logs — but the segment CSV is not: its content after a run is independent
of whatever the CSV held before, because the file is reopened with mode
`'w'` and rewritten from scratch. -/
theorem checkpoint_logs_append_only_csv_rewritten
    (detect : String → Except String (List RawSeg))
    (threshold min_duration : ℚ) (fc fl : List String) (s : ShardState) :
    (∃ p, (run_shard detect threshold min_duration fc fl s).processedLog =
      s.processedLog ++ p) ∧
    (∃ w, (run_shard detect threshold min_duration fc fl s).warningLog =
      s.warningLog ++ w) ∧
    (∃ e, (run_shard detect threshold min_duration fc fl s).errorLog =
      s.errorLog ++ e) ∧
    ∀ rows₁ rows₂ : List CsvRow,
      (run_shard detect threshold min_duration fc fl
          { s with csvRows := rows₁ }).csvRows =
        (run_shard detect threshold min_duration fc fl
          { s with csvRows := rows₂ }).csvRows := by
  refine
    ⟨⟨processedOf (shard_body detect threshold min_duration fc fl s.processedLog), ?_⟩,
     ⟨warningsOf (shard_body detect threshold min_duration fc fl s.processedLog), ?_⟩,
     ⟨errorsOf (shard_body detect threshold min_duration fc fl s.processedLog), ?_⟩, ?_⟩
  · rw [run_shard_eq]
  · rw [run_shard_eq]
  · rw [run_shard_eq]
  · intro rows₁ rows₂
    rw [run_shard_eq, run_shard_eq]

/-- C5 counterexample: the output merger's search patterns do not include
the per-shard error log, so the error logs are never located or
consolidated, contradicting the claim that all three plain-text logs are
merged. -/
theorem error_log_not_in_patterns : "error_files.log" ∉ file_patterns := by
  simp [file_patterns]

/-- C5 (amended): the merger searches only for the processed log, the
warning log and the segment CSV — not the error log.  For the plain-text
logs it concatenates all lines and deduplicates set-wise by exact line
equality (membership preserved, no duplicates); for the segment CSV it
concatenates all rows and deduplicates by full-row equality keeping the
first occurrence (an order-preserving duplicate-free sublist of the
concatenation); identical rows or lines from two shards collapse to one. -/
theorem merger_scope_and_dedup :
    file_patterns =
      ["processed_files.log", "speech_segments.csv", "warning_files.log"] ∧
    "error_files.log" ∉ file_patterns ∧
    (∀ (contents : List (List String)) (line : String),
      line ∈ merge_vad_output_text contents ↔ line ∈ contents.flatten) ∧
    (∀ contents : List (List String),
      (merge_vad_output_text contents).Nodup) ∧
    (∀ (tables : List (List CsvRow)) (row : CsvRow),
      row ∈ merge_vad_output_csv tables ↔ row ∈ tables.flatten) ∧
    (∀ tables : List (List CsvRow),
      (merge_vad_output_csv tables).Nodup) ∧
    (∀ tables : List (List CsvRow),
      List.Sublist (merge_vad_output_csv tables) tables.flatten) ∧
    merge_vad_output_csv [[⟨"file.wav", 0, 1, 1⟩], [⟨"file.wav", 0, 1, 1⟩]] =
      [⟨"file.wav", 0, 1, 1⟩] ∧
    merge_vad_output_text [["file.wav"], ["file.wav"]] = ["file.wav"] := by
  refine ⟨rfl, by simp [file_patterns], ?_, ?_, ?_, ?_, ?_, ?_, ?_⟩
  · intro contents line
    exact mem_dedupFirst _ _
  · intro contents
    exact nodup_dedupFirst _
  · intro tables row
    exact mem_dedupFirst _ _
  · intro tables
    exact nodup_dedupFirst _
  · intro tables
    exact sublist_dedupFirst _
  · simp [merge_vad_output_csv, dedupFirst, dedupFirstGo]
  · simp [merge_vad_output_text, dedupFirst, dedupFirstGo]

/-- C6 counterexample: a report run with a non-empty segment table (one
segment of duration 1) and a zero total corpus duration is not detected as
degenerate — the percentage computation raises an uncaught
`ZeroDivisionError` instead of reporting that no valid segments were
found. -/
theorem report_zero_duration_raises :
    generate_report [1] 1 0 = Except.error "ZeroDivisionError" := by
  simp [generate_report]

/-- C6 (amended): an empty segment table is detected and handled
non-fatally — the report generator takes the branch that logs "no valid
segments found" instead of computing percentages — but a zero total corpus
duration with a non-empty segment table is not detected: the percentage
division raises a `ZeroDivisionError`.  When the total duration is
non-zero the percentages are computed normally. -/
theorem report_degenerate_handling :
    (∀ total_speech total_audio,
      generate_report [] total_speech total_audio = Except.ok none) ∧
    (∀ d ds total_speech,
      generate_report (d :: ds) total_speech 0 =
        Except.error "ZeroDivisionError") ∧
    (∀ d ds total_speech total_audio, total_audio ≠ 0 →
      generate_report (d :: ds) total_speech total_audio =
        Except.ok (some (total_speech / total_audio * 100,
          100 - total_speech / total_audio * 100))) := by
  refine ⟨fun ts ta => by simp [generate_report], ?_, ?_⟩
  · intro d ds ts
    simp [generate_report]
  · intro d ds ts ta hta
    simp [generate_report, hta]

/-- C6 witness: the spec's report-arithmetic example — total speech 9 s
over total corpus duration 30 s gives 30 percent speech and 70 percent
non-speech, via the non-degenerate branch of the amended theorem. -/
theorem report_degenerate_handling_witness :
    generate_report [1] 9 30 = Except.ok (some (30, 70)) := by
  rw [report_degenerate_handling.2.2 1 [] 9 30 (by norm_num)]
  norm_num

/-- C7: for a positive worker count `n`, `split_list` produces exactly `n`
shards, contiguous runs in the original order whose concatenation is the
input list; shard `i` has `len / n` files plus one extra exactly when
`i < len % n` (so exactly the first `len mod n` shards get one extra), and
any two shard sizes differ by at most one. -/
theorem split_list_partition (lst : List α) (n : ℕ) (hn : 0 < n) :
    (split_list lst n).length = n ∧
    (split_list lst n).flatten = lst ∧
    (split_list lst n).map List.length =
      (List.range n).map
        (fun i => lst.length / n + if i < lst.length % n then 1 else 0) ∧
    ∀ s₁ ∈ split_list lst n, ∀ s₂ ∈ split_list lst n,
      s₁.length ≤ s₂.length + 1 := by
  refine ⟨split_list_length lst n, split_list_flatten hn,
    split_list_map_length hn, ?_⟩
  intro s₁ h₁ s₂ h₂
  have m₁ : s₁.length ∈ (split_list lst n).map List.length :=
    List.mem_map_of_mem _ h₁
  have m₂ : s₂.length ∈ (split_list lst n).map List.length :=
    List.mem_map_of_mem _ h₂
  rw [split_list_map_length hn, List.mem_map] at m₁ m₂
  obtain ⟨i, -, hieq⟩ := m₁
  obtain ⟨j, -, hjeq⟩ := m₂
  by_cases hi2 : i < lst.length % n <;> by_cases hj2 : j < lst.length % n <;>
    simp only [hi2, hj2, if_pos, if_neg, not_false_iff] at hieq hjeq <;>
    omega

/-- C7 witness: five files split over two workers give shard sizes 3 and 2
and concatenate back to the input in order. -/
theorem split_list_partition_witness :
    (split_list ["a", "b", "c", "d", "e"] 2).flatten =
      ["a", "b", "c", "d", "e"] ∧
    (split_list ["a", "b", "c", "d", "e"] 2).map List.length = [3, 2] := by
  have h := split_list_partition ["a", "b", "c", "d", "e"] 2 (by norm_num)
  refine ⟨h.2.1, ?_⟩
  rw [h.2.2.1]
  rfl

/-- C8: the min-duration filter keeps a merged segment exactly when its
duration is not strictly below the configured minimum — a duration-0.3
segment is dropped at minimum 0.5, and a duration exactly equal to the
minimum is kept (inclusive boundary). -/
theorem filter_min_duration_boundary :
    (∀ (cleaned : List Seg) (min_duration : ℚ) (utt : Seg),
      utt ∈ filter_min_duration cleaned min_duration ↔
        utt ∈ cleaned ∧ ¬ utt.duration < min_duration) ∧
    filter_min_duration [⟨0, 0.3, 0.3⟩] 0.5 = [] ∧
    filter_min_duration [⟨0, 0.5, 0.5⟩] 0.5 = [⟨0, 0.5, 0.5⟩] := by
  refine ⟨?_, ?_, ?_⟩
  · intro cleaned min_duration utt
    rw [filter_min_duration, List.mem_filter]
    simp [not_lt, ge_iff_le]
  · norm_num [filter_min_duration, List.filter_cons]
  · norm_num [filter_min_duration, List.filter_cons]

lemma processedOf_flatten (L : List (List Event)) :
    processedOf L.flatten = (L.map processedOf).flatten :=
  filterMap_flatten_eq _ L

lemma errorsOf_flatten (L : List (List Event)) :
    errorsOf L.flatten = (L.map errorsOf).flatten :=
  filterMap_flatten_eq _ L

/-- C9: when exactly one file of a shard's assigned list fails in
decode/detect and every other file yields non-empty detected speech, the
run appends exactly one line `"<filename>: <message>"` to the error log and
every other file ends up in the processed log — one bad file never aborts
the shard and leaves precisely one error record. -/
theorem fault_isolation
    (detect : String → Except String (List RawSeg))
    (threshold min_duration : ℚ) (fc : List String) (s : ShardState)
    (files : List String) (f msg : String)
    (hnd : files.Nodup)
    (hwav : ∀ g ∈ files, endswith g ".wav" = true)
    (hnp : ∀ g ∈ files, g ∉ s.processedLog)
    (hf : f ∈ files)
    (herr : detect f = Except.error msg)
    (hok : ∀ g ∈ files, g ≠ f → ∃ ts, detect g = Except.ok ts ∧ ts ≠ []) :
    (run_shard detect threshold min_duration fc files s).errorLog =
      s.errorLog ++ [f ++ ": " ++ msg] ∧
    ∀ g ∈ files, g ≠ f →
      g ∈ (run_shard detect threshold min_duration fc files s).processedLog := by
  have hne : files ≠ [] := List.ne_nil_of_mem hf
  have hsel : select_wav_files files fc s.processedLog = files :=
    select_eq_self hne hwav hnp
  have hbody : shard_body detect threshold min_duration fc files s.processedLog
      = (files.map (processFile detect threshold min_duration)).flatten := by
    rw [shard_body, hsel]
  constructor
  · rw [run_shard_eq]
    simp only
    congr 1
    rw [hbody, errorsOf_flatten, List.map_map]
    apply flatten_map_eq_singleton hf hnd
    · simpa [Function.comp] using
        errorsOf_processFile_error threshold min_duration herr
    · intro g hg hgf
      obtain ⟨ts, hts, -⟩ := hok g hg hgf
      simpa [Function.comp] using
        errorsOf_processFile_ok threshold min_duration hts
  · intro g hg hgf
    rw [run_shard_eq]
    simp only
    apply List.mem_append_right
    rw [hbody, processedOf_flatten, List.map_map]
    obtain ⟨ts, hts, htsne⟩ := hok g hg hgf
    have hone :
        processedOf (processFile detect threshold min_duration g) = [g] :=
      processedOf_processFile_ok _ _ hts htsne
    refine List.mem_flatten.mpr
      ⟨(processedOf ∘ processFile detect threshold min_duration) g, ?_, ?_⟩
    · exact List.mem_map_of_mem _ hg
    · show g ∈ processedOf (processFile detect threshold min_duration g)
      rw [hone]
      exact List.mem_singleton_self g

/-- C9 witness: in a three-file shard where only `bad.wav` raises, the run
leaves exactly the single error line `"bad.wav: boom"` and the other two
files are processed. -/
theorem fault_isolation_witness :
    (run_shard det_mixed 0.25 0.5 [] ["good1.wav", "bad.wav", "good2.wav"]
        ⟨[], [], [], []⟩).errorLog = ["bad.wav: boom"] ∧
    "good1.wav" ∈ (run_shard det_mixed 0.25 0.5 []
        ["good1.wav", "bad.wav", "good2.wav"] ⟨[], [], [], []⟩).processedLog := by
  have h := fault_isolation det_mixed 0.25 0.5 [] ⟨[], [], [], []⟩
      ["good1.wav", "bad.wav", "good2.wav"] "bad.wav" "boom"
      (by simp) (by decide) (by simp) (by simp) (by simp [det_mixed])
      (fun g hg hgf => ⟨[⟨0, 32000⟩], by simp [det_mixed, hgf], by simp⟩)
  exact ⟨by simpa using h.1, h.2 "good1.wav" (by simp) (by simp)⟩

/-- C10: a shard handed an empty file list (which `split_list` produces
whenever the worker count exceeds the number of files) does not exit and
does not process nothing: the log folder stays the shared top-level one
(no per-shard subdirectory), the work list falls back to the `.wav`
entries of the corpus folder not yet in the processed log, and every such
folder file is actually detected in the run's trace. -/
theorem empty_file_list_fallback
    (detect : String → Except String (List RawSeg))
    (threshold min_duration : ℚ) (data_split log_folder : String)
    (fc processed : List String) (lst : List String) (n : ℕ)
    (hlen : lst.length < n) :
    [] ∈ split_list lst n ∧
    effective_log_folder [] data_split log_folder = some log_folder ∧
    select_wav_files [] fc processed =
      fc.filter (fun f => endswith f ".wav" && decide (f ∉ processed)) ∧
    ∀ f ∈ fc, endswith f ".wav" = true → f ∉ processed →
      Event.detect f ∈
        process_trace detect threshold min_duration fc [] processed := by
  refine ⟨empty_mem_split_list hlen, rfl, rfl, ?_⟩
  intro f hf hwav hnp
  rw [process_trace, List.mem_cons]
  right
  rw [shard_body, List.mem_flatten]
  refine ⟨processFile detect threshold min_duration f, ?_, ?_⟩
  · apply List.mem_map_of_mem
    rw [select_wav_files, if_neg (by simp), List.mem_filter]
    exact ⟨hf, by simp [hwav, hnp]⟩
  · rw [processFile]
    exact List.mem_cons_self _ _

/-- C10 witness: one corpus file split over two workers leaves an empty
shard; a worker given the empty list keeps the top-level log folder and
scans the folder, detecting the corpus file `x.wav`. -/
theorem empty_file_list_fallback_witness :
    [] ∈ split_list ["a.wav"] 2 ∧
    effective_log_folder [] "3" "logs" = some "logs" ∧
    Event.detect "x.wav" ∈
      process_trace det_single 0.25 0.5 ["x.wav"] [] [] := by
  have h := empty_file_list_fallback det_single 0.25 0.5 "3" "logs"
      ["x.wav"] [] ["a.wav"] 2 (by norm_num)
  exact ⟨h.1, h.2.1, h.2.2.2 "x.wav" (by simp) (by decide) (by simp)⟩
